import Mathlib

set_option maxHeartbeats 1000000

/-!
Verification development for the package trustworthiness scorer
(sources: src/src/cli.ts, src/src/Metrics.ts, src/db/database.sql,
src/db/test_database.sql).  JavaScript strings are embedded as Lean
strings, machine numbers as rationals, asynchronous external calls
(GitHub API, npm registry, PostgreSQL pool) as explicit oracle
parameters, and thrown exceptions as Except / Option results.
-/

/-- Boolean test that the second list starts with the first one: a literal
match of the pattern at the current position. -/
def beginsWith : List Char → List Char → Bool
  | [], _ => true
  | _ :: _, [] => false
  | c :: p, d :: s => (c == d) && beginsWith p s

/-- Boolean contiguous-substring test, the embedding of JavaScript
String.prototype.includes and of SQL LIKE with a wildcard on both sides. -/
def containsSub (pat : List Char) : List Char → Bool
  | [] => pat.isEmpty
  | d :: t => beginsWith pat (d :: t) || containsSub pat t

/-- String-level wrapper for the substring test. -/
def strContains (s pat : String) : Bool := containsSub pat.data s.data

/-- Split at every occurrence of one separator character, the embedding
of JavaScript String.prototype.split with a one-character separator: the
empty string yields one empty piece, and a trailing separator yields a
trailing empty piece. -/
def splitOnChar (sep : Char) : List Char → List (List Char)
  | [] => [[]]
  | c :: t =>
    if c = sep then [] :: splitOnChar sep t
    else
      match splitOnChar sep t with
      | [] => [[c]]
      | seg :: rest => (c :: seg) :: rest

/-- String-level wrapper for the one-character split. -/
def strSplitOn (sep : Char) (s : String) : List String :=
  (splitOnChar sep s.data).map String.mk

theorem beginsWith_iff (p : List Char) : ∀ s : List Char,
    beginsWith p s = true ↔ ∃ t, s = p ++ t := by
  induction p with
  | nil => intro s; simp [beginsWith]
  | cons c p ih =>
    intro s
    cases s with
    | nil => simp [beginsWith]
    | cons d t =>
      simp only [beginsWith, Bool.and_eq_true, beq_iff_eq, ih t, List.cons_append,
        List.cons.injEq]
      constructor
      · rintro ⟨rfl, u, rfl⟩; exact ⟨u, rfl, rfl⟩
      · rintro ⟨u, rfl, rfl⟩; exact ⟨rfl, u, rfl⟩

theorem containsSub_iff (p : List Char) : ∀ s : List Char,
    containsSub p s = true ↔ ∃ pre post, s = pre ++ p ++ post := by
  intro s
  induction s with
  | nil =>
    simp only [containsSub, List.isEmpty_iff]
    constructor
    · rintro rfl; exact ⟨[], [], rfl⟩
    · rintro ⟨pre, post, h⟩
      rcases List.append_eq_nil.mp h.symm with ⟨h1, h2⟩
      exact (List.append_eq_nil.mp h1).2
  | cons d t ih =>
    simp only [containsSub, Bool.or_eq_true, beginsWith_iff, ih]
    constructor
    · rintro (⟨u, hu⟩ | ⟨pre, post, hp⟩)
      · exact ⟨[], u, by simp [hu]⟩
      · exact ⟨d :: pre, post, by simp [hp]⟩
    · rintro ⟨pre, post, hp⟩
      cases pre with
      | nil => exact Or.inl ⟨post, by simpa using hp⟩
      | cons e pre' =>
        right
        refine ⟨pre', post, ?_⟩
        have := hp
        simp only [List.cons_append, List.cons.injEq] at this
        exact this.2

/-- A character of the pattern occurs in any list that the pattern occurs in. -/
theorem mem_of_containsSub {p s : List Char} {c : Char}
    (hc : c ∈ p) (h : containsSub p s = true) : c ∈ s := by
  rcases (containsSub_iff p s).mp h with ⟨pre, post, rfl⟩
  simp [hc]

/-- A pattern holding a non-whitespace character never occurs inside an
all-whitespace line. -/
theorem containsSub_eq_false_of_whitespace {p s : List Char} (c : Char)
    (hc : c ∈ p) (hcw : c.isWhitespace = false)
    (hs : ∀ d ∈ s, d.isWhitespace = true) : containsSub p s = false := by
  by_contra h
  have h' : containsSub p s = true := by
    cases hcs : containsSub p s with
    | false => exact absurd hcs h
    | true => rfl
  have := hs c (mem_of_containsSub hc h')
  rw [hcw] at this
  exact Bool.false_ne_true this

/-- The literal part of the owner/repo extraction pattern in
Metrics.getRepoData (src/src/Metrics.ts line 138). -/
def ghChars : List Char := "github.com/".data

/-- A list of characters with no '/' in it, the language of one capture
group of the getRepoData pattern. -/
def slashFree (l : List Char) : Prop := ∀ c ∈ l, c ≠ '/'

theorem mem_takeWhile_pred (p : Char → Bool) :
    ∀ (l : List Char) (c : Char), c ∈ l.takeWhile p → p c = true := by
  intro l
  induction l with
  | nil => intro c hc; simp [List.takeWhile] at hc
  | cons d t ih =>
    intro c hc
    rw [List.takeWhile] at hc
    cases hpd : p d with
    | false => rw [hpd] at hc; simp at hc
    | true =>
      rw [hpd] at hc
      rcases List.mem_cons.mp hc with rfl | hmem
      · exact hpd
      · exact ih c hmem

theorem dropWhile_head_false (p : Char → Bool) :
    ∀ (l : List Char) (x : Char) (xs : List Char),
      l.dropWhile p = x :: xs → p x = false := by
  intro l
  induction l with
  | nil => intro x xs h; simp [List.dropWhile] at h
  | cons d t ih =>
    intro x xs h
    rw [List.dropWhile] at h
    cases hpd : p d with
    | false =>
      rw [hpd] at h
      cases h
      exact hpd
    | true =>
      rw [hpd] at h
      exact ih x xs h

theorem takeWhile_slash (o t : List Char) (ho : slashFree o) :
    (o ++ '/' :: t).takeWhile (fun c => c != '/') = o := by
  induction o with
  | nil => simp [List.takeWhile]
  | cons c o' ih =>
    have hc : (c != '/') = true := by
      simp [bne_iff_ne]
      exact ho c (List.mem_cons_self c o')
    have ho' : slashFree o' := fun d hd => ho d (List.mem_cons_of_mem c hd)
    simp only [List.cons_append, List.takeWhile, hc, List.append_eq]
    rw [ih ho']

theorem dropWhile_slash (o t : List Char) (ho : slashFree o) :
    (o ++ '/' :: t).dropWhile (fun c => c != '/') = '/' :: t := by
  induction o with
  | nil => simp [List.dropWhile]
  | cons c o' ih =>
    have hc : (c != '/') = true := by
      simp [bne_iff_ne]
      exact ho c (List.mem_cons_self c o')
    have ho' : slashFree o' := fun d hd => ho d (List.mem_cons_of_mem c hd)
    simp only [List.cons_append, List.dropWhile, hc, List.append_eq]
    exact ih ho'

/-- Embedding of the capture part of the pattern
/github.com\/([^/]+)\/([^/]+)/ once the literal "github.com/" has been
consumed: a non-empty run of non-slash characters, a slash, and a second
non-empty run of non-slash characters (both runs maximal, as the greedy
character classes of the source pattern are). -/
def matchSegs (rest : List Char) : Option (List Char × List Char) :=
  match rest.dropWhile (fun c => c != '/') with
  | '/' :: rest3 =>
    if (rest.takeWhile (fun c => c != '/')).isEmpty
        || (rest3.takeWhile (fun c => c != '/')).isEmpty then none
    else some (rest.takeWhile (fun c => c != '/'), rest3.takeWhile (fun c => c != '/'))
  | _ => none

/-- Attempt of the getRepoData pattern at one start position. -/
def matchRepoAt (s : List Char) : Option (List Char × List Char) :=
  if beginsWith ghChars s then matchSegs (s.drop ghChars.length) else none

/-- Leftmost match of the getRepoData pattern, the embedding of
JavaScript url.match scanning start positions left to right. -/
def findRepo : List Char → Option (List Char × List Char)
  | [] => none
  | c :: t =>
    match matchRepoAt (c :: t) with
    | some x => some x
    | none => findRepo t

theorem matchSegs_sound {rest o r : List Char} (h : matchSegs rest = some (o, r)) :
    ∃ post, rest = o ++ '/' :: (r ++ post) ∧ o ≠ [] ∧ r ≠ [] ∧
      slashFree o ∧ slashFree r := by
  unfold matchSegs at h
  cases hdw : rest.dropWhile (fun c => c != '/') with
  | nil => rw [hdw] at h; simp at h
  | cons x xs =>
    have hx : (x != '/') = false := dropWhile_head_false _ rest x xs hdw
    have hx' : x = '/' := by
      cases hxc : x == '/' with
      | false => rw [bne, hxc] at hx; simp at hx
      | true => exact beq_iff_eq.mp hxc
    subst hx'
    rw [hdw] at h
    simp only at h
    cases hemp : ((rest.takeWhile fun c => c != '/').isEmpty
        || (xs.takeWhile fun c => c != '/').isEmpty) with
    | true => rw [hemp] at h; simp at h
    | false =>
      rw [hemp] at h
      rw [if_neg (by simp)] at h
      simp only [Option.some.injEq, Prod.mk.injEq] at h
      rcases h with ⟨ho, hr⟩
      rcases Bool.or_eq_false_iff.mp hemp with ⟨he1, he2⟩
      refine ⟨xs.dropWhile (fun c => c != '/'), ?_, ?_, ?_, ?_, ?_⟩
      · rw [← ho, ← hr]
        conv_lhs => rw [← List.takeWhile_append_dropWhile (fun c => c != '/') rest]
        rw [hdw]
        congr 1
        rw [List.takeWhile_append_dropWhile]
      · rw [← ho]; exact fun hnil => by rw [hnil] at he1; simp [List.isEmpty] at he1
      · rw [← hr]; exact fun hnil => by rw [hnil] at he2; simp [List.isEmpty] at he2
      · rw [← ho]
        intro c hc
        have := mem_takeWhile_pred _ rest c hc
        exact bne_iff_ne.mp this
      · rw [← hr]
        intro c hc
        have := mem_takeWhile_pred _ xs c hc
        exact bne_iff_ne.mp this

theorem matchSegs_complete {o r : List Char} (post : List Char) (ho : o ≠ []) (hr : r ≠ [])
    (hso : slashFree o) (hsr : slashFree r) :
    ∃ r', matchSegs (o ++ '/' :: (r ++ post)) = some (o, r') ∧
      ∃ post', r ++ post = r' ++ post' ∧ slashFree r' ∧ r' ≠ [] := by
  have hdw : (o ++ '/' :: (r ++ post)).dropWhile (fun c => c != '/') = '/' :: (r ++ post) :=
    dropWhile_slash o (r ++ post) hso
  have htw : (o ++ '/' :: (r ++ post)).takeWhile (fun c => c != '/') = o :=
    takeWhile_slash o (r ++ post) hso
  have hrne : (r ++ post).takeWhile (fun c => c != '/') ≠ [] := by
    cases r with
    | nil => exact absurd rfl hr
    | cons c r' =>
      have hc : (c != '/') = true := bne_iff_ne.mpr (hsr c (List.mem_cons_self c r'))
      simp [List.takeWhile, hc]
  refine ⟨(r ++ post).takeWhile (fun c => c != '/'), ?_, ?_⟩
  · unfold matchSegs
    rw [hdw]
    simp only [htw]
    have h1 : o.isEmpty = false := by cases o with
      | nil => exact absurd rfl ho
      | cons _ _ => rfl
    have h2 : ((r ++ post).takeWhile (fun c => c != '/')).isEmpty = false := by
      cases htk : (r ++ post).takeWhile (fun c => c != '/') with
      | nil => exact absurd htk hrne
      | cons _ _ => rfl
    rw [h1, h2]
    rfl
  · refine ⟨(r ++ post).dropWhile (fun c => c != '/'), ?_, ?_, hrne⟩
    · rw [List.takeWhile_append_dropWhile]
    · intro c hc
      exact bne_iff_ne.mp (mem_takeWhile_pred _ (r ++ post) c hc)

theorem matchRepoAt_sound {s o r : List Char} (h : matchRepoAt s = some (o, r)) :
    ∃ post, s = ghChars ++ o ++ '/' :: (r ++ post) ∧ o ≠ [] ∧ r ≠ [] ∧
      slashFree o ∧ slashFree r := by
  unfold matchRepoAt at h
  cases hb : beginsWith ghChars s with
  | false => rw [hb] at h; simp at h
  | true =>
    rw [hb] at h
    simp only [if_true] at h
    rcases (beginsWith_iff ghChars s).mp hb with ⟨t, rfl⟩
    rw [List.drop_left] at h
    rcases matchSegs_sound h with ⟨post, ht, h1, h2, h3, h4⟩
    exact ⟨post, by rw [ht, List.append_assoc], h1, h2, h3, h4⟩

theorem matchRepoAt_complete {o r : List Char} (post : List Char) (ho : o ≠ []) (hr : r ≠ [])
    (hso : slashFree o) (hsr : slashFree r) :
    (matchRepoAt (ghChars ++ o ++ '/' :: (r ++ post))).isSome = true := by
  have hb : beginsWith ghChars (ghChars ++ (o ++ '/' :: (r ++ post))) = true :=
    (beginsWith_iff _ _).mpr ⟨_, rfl⟩
  unfold matchRepoAt
  rw [List.append_assoc, hb]
  simp only [if_true]
  rw [List.drop_left]
  rcases matchSegs_complete post ho hr hso hsr with ⟨r', hm, _⟩
  rw [hm]
  rfl

theorem findRepo_sound {o r : List Char} : ∀ {s : List Char},
    findRepo s = some (o, r) →
    ∃ pre post, s = pre ++ ghChars ++ o ++ '/' :: (r ++ post) ∧ o ≠ [] ∧ r ≠ [] ∧
      slashFree o ∧ slashFree r := by
  intro s
  induction s with
  | nil => intro h; simp [findRepo] at h
  | cons c t ih =>
    intro h
    unfold findRepo at h
    cases hm : matchRepoAt (c :: t) with
    | some x =>
      rw [hm] at h
      simp only [Option.some.injEq] at h
      subst h
      rcases matchRepoAt_sound hm with ⟨post, hs, h1, h2, h3, h4⟩
      exact ⟨[], post, by simpa using hs, h1, h2, h3, h4⟩
    | none =>
      rw [hm] at h
      simp only at h
      rcases ih h with ⟨pre, post, hs, h1, h2, h3, h4⟩
      exact ⟨c :: pre, post, by simp [hs], h1, h2, h3, h4⟩

theorem findRepo_complete {o r : List Char} (ho : o ≠ []) (hr : r ≠ [])
    (hso : slashFree o) (hsr : slashFree r) : ∀ (pre post : List Char),
    (findRepo (pre ++ ghChars ++ o ++ '/' :: (r ++ post))).isSome = true := by
  intro pre
  induction pre with
  | nil =>
    intro post
    have hcomp := matchRepoAt_complete post ho hr hso hsr
    cases hs : ghChars ++ o ++ '/' :: (r ++ post) with
    | nil =>
      exact absurd (List.append_eq_nil.mp hs).2 (List.cons_ne_nil _ _)
    | cons c t =>
      simp only [List.nil_append]
      rw [hs]
      unfold findRepo
      rw [← hs]
      cases hm : matchRepoAt (ghChars ++ o ++ '/' :: (r ++ post)) with
      | none => rw [hm] at hcomp; simp at hcomp
      | some x => rfl
  | cons c pre' ih =>
    intro post
    simp only [List.cons_append]
    unfold findRepo
    cases hm : matchRepoAt (c :: (pre' ++ ghChars ++ o ++ '/' :: (r ++ post))) with
    | some x => rfl
    | none =>
      simp only
      exact ih post

theorem findRepo_first {o r : List Char} : ∀ (i : Nat) (s : List Char),
    matchRepoAt (s.drop i) = some (o, r) →
    (∀ j, j < i → matchRepoAt (s.drop j) = none) →
    findRepo s = some (o, r) := by
  intro i
  induction i with
  | zero =>
    intro s h _
    rw [List.drop_zero] at h
    cases s with
    | nil => simp [matchRepoAt, matchSegs, beginsWith, ghChars] at h
    | cons c t => unfold findRepo; rw [h]
  | succ i ih =>
    intro s h hnone
    cases s with
    | nil => simp [List.drop_nil, matchRepoAt, matchSegs, beginsWith, ghChars] at h
    | cons c t =>
      have h0 : matchRepoAt (c :: t) = none := by
        have := hnone 0 (Nat.succ_pos i)
        simpa using this
      unfold findRepo
      rw [h0]
      simp only
      exact ih t (by simpa using h)
        (fun j hj => by simpa using hnone (j + 1) (Nat.succ_lt_succ hj))

/-- Embedding of the state of the abstract Metrics class
(src/src/Metrics.ts lines 104-128): the fields assigned by its
constructor.  The octokit handle is an external collaborator and is not
part of the embedded state. -/
structure Metrics where
  url : String
  owner : String
  repo : String
  NativeURL : String
  responseTime : ℚ
deriving DecidableEq

/-- Embedding of Metrics.getRepoData (src/src/Metrics.ts lines 137-145):
match the URL against /github.com\/([^/]+)\/([^/]+)/ and either return the
two captures or throw an invalid-URL error. -/
def getRepoData (url : String) : Except String (String × String) :=
  match findRepo url.data with
  | none => .error ("Invalid GitHub URL: " ++ url)
  | some (o, r) => .ok (String.mk o, String.mk r)

/-- Embedding of the Metrics constructor (src/src/Metrics.ts lines
122-128): store both URLs, extract owner and repo via getRepoData, and
initialize responseTime to 0.  A thrown getRepoData error propagates out
of construction. -/
def mkMetrics (nativeURL url : String) : Except String Metrics :=
  match getRepoData url with
  | .error e => .error e
  | .ok (o, r) =>
      .ok { url := url, owner := o, repo := r, NativeURL := nativeURL, responseTime := 0 }

/-- The recognized host pattern of the specification: the URL contains
"github.com/", a non-empty slash-free owner segment, a slash, and a
non-empty slash-free repo segment. -/
def HasRepoPattern (url : String) : Prop :=
  ∃ pre o r post, url.data = pre ++ ghChars ++ o ++ '/' :: (r ++ post) ∧
    o ≠ [] ∧ r ≠ [] ∧ slashFree o ∧ slashFree r

/-- Embedding of the URL-collection loop of processUrls
(src/src/cli.ts lines 175-193).  The resolver oracle stands for the
asynchronous getGithubUrlFromNpm call; the source also computes
url.trim() on line 179 but discards the result, so the untrimmed line is
what every test below sees.  The JavaScript truthiness test
if (githubUrl) rejects both null and the empty string. -/
def collectUrls (resolver : String → Option String) : List String → List (String × String)
  | [] => []
  | url :: rest =>
    if url = "" then collectUrls resolver rest
    else if strContains url "github.com" then (url, url) :: collectUrls resolver rest
    else if strContains url "npmjs.com" then
      match resolver url with
      | some githubUrl =>
          if githubUrl = "" then collectUrls resolver rest
          else (url, githubUrl) :: collectUrls resolver rest
      | none => collectUrls resolver rest
    else collectUrls resolver rest

/-- Observable steps of the per-package evaluation loop of processUrls
(src/src/cli.ts lines 203-327): awaiting netScore.evaluate, writing the
result line to stdout, and persisting the package row (with the id the
insert returned). -/
inductive Event where
  | eval (url : String)
  | emit (url : String)
  | persist (url : String) (packageId : Nat)
deriving DecidableEq

/-- Embedding of the evaluation loop of processUrls (src/src/cli.ts lines
203-327).  Constructing NetScore for an entry applies the Metrics
constructor to the resolved URL (netScore.ts is not under src/; per the
specification, sections 3 and 9, NetScore derives from the abstract
Metrics class, so construction applies Metrics.getRepoData from
src/src/Metrics.ts).  A construction error propagates out of the loop
uncaught, ending the batch with the pending entries unprocessed.  The
insertPkg oracle stands for the awaited packages_combined insert; when it
fails the source logs and returns from processUrls, ending the batch
normally.  The result is the trace of observable events together with
the escaped error, when one escaped. -/
def evalPhase (insertPkg : String → Option Nat) :
    List (String × String) → List Event × Option String
  | [] => ([], none)
  | (nativeUrl, githubUrl) :: rest =>
    match mkMetrics nativeUrl githubUrl with
    | .error e => ([], some e)
    | .ok _ =>
      match insertPkg githubUrl with
      | none => ([Event.eval githubUrl, Event.emit githubUrl], none)
      | some packageId =>
        let t := evalPhase insertPkg rest
        (Event.eval githubUrl :: Event.emit githubUrl ::
          Event.persist githubUrl packageId :: t.fst, t.snd)

/-- Embedding of processUrls (src/src/cli.ts lines 170-328).  The
remaining-quota argument mirrors the rate-limit snapshot fetched on line
172: the source only logs it, so no part of the result depends on it.
The file contents are split on newline exactly as on line 175. -/
def processUrls (remaining : Nat) (resolver : String → Option String)
    (insertPkg : String → Option Nat) (contents : String) : List Event × Option String :=
  evalPhase insertPkg (collectUrls resolver (strSplitOn '\n' contents))

/-- Embedding of the quota gate of runTests (src/src/cli.ts lines
104-162): when the remaining rate limit is below 300 the process warns
and exits with status 1 before any test suite runs; otherwise the six
test suites run.  Except.error carries the exit status, Except.ok the
number of test suites that ran. -/
def runTests (remaining : Nat) : Except Nat Nat :=
  if remaining < 300 then Except.error 1 else Except.ok 6

/-- A value bound into a parameterized SQL insert by the cli
(src/src/cli.ts): a string, a number, a boolean, or null. -/
inductive SqlValue where
  | str (s : String)
  | num (q : ℚ)
  | bool (b : Bool)
  | null
deriving DecidableEq

/-- The rampUp sub-object of NetScore read by the cli
(netScore.rampUp.rampUp and netScore.rampUp.responseTime). -/
structure RampUpData where
  rampUp : ℚ
  responseTime : ℚ

/-- The busFactor sub-object of NetScore read by the cli. -/
structure BusFactorData where
  busFactor : ℚ
  responseTime : ℚ

/-- The correctness sub-object of NetScore read by the cli. -/
structure CorrectnessData where
  correctness : ℚ
  responseTime : ℚ

/-- The license sub-object of NetScore read by the cli. -/
structure LicenseData where
  license : ℚ
  responseTime : ℚ

/-- The maintainability sub-object of NetScore read by the cli. -/
structure MaintainabilityData where
  maintainability : ℚ
  responseTime : ℚ

/-- One entry of netScore.dependencies read by the cli
(src/src/cli.ts lines 250-256). -/
structure DependencyData where
  url : String
  isInternal : Bool

/-- The properties of a NetScore instance that processUrls reads when it
builds its insert rows (src/src/cli.ts lines 218-313).  The class itself
lives in netScore.ts, which only declares these fields for the cli to
read; the embedding records them as plain data. -/
structure NetScoreData where
  packageName : String
  repoLink : String
  netScore : ℚ
  finalMetric : ℚ
  finalMetricLatency : ℚ
  rampUp : RampUpData
  busFactor : BusFactorData
  correctness : CorrectnessData
  license : LicenseData
  maintainability : MaintainabilityData
  dependencies : List DependencyData

/-- Embedding of packageValues (src/src/cli.ts lines 218-227), the bound
values of the packages_combined insert.  The third value, is_internal, is
the literal false of line 221. -/
def packageValues (netScore : NetScoreData) : List SqlValue :=
  [SqlValue.str netScore.packageName,
   SqlValue.str netScore.repoLink,
   SqlValue.bool false,
   SqlValue.str "1.0.0",
   SqlValue.null,
   SqlValue.num netScore.netScore,
   SqlValue.num netScore.finalMetric,
   SqlValue.num netScore.finalMetricLatency]

/-- Embedding of dependencyValues (src/src/cli.ts lines 252-256), the
bound values of the dependencies insert for one dependency. -/
def dependencyValues (packageId : Nat) (dep : DependencyData) : List SqlValue :=
  [SqlValue.num packageId, SqlValue.str dep.url, SqlValue.bool dep.isInternal]

/-- Embedding of metricsValues (src/src/cli.ts lines 277-284), the bound
values of the metrics insert.  The first value is the string literal
written on line 278. -/
def metricsValues (netScore : NetScoreData) : List SqlValue :=
  [SqlValue.str "3",
   SqlValue.num netScore.rampUp.rampUp,
   SqlValue.num netScore.busFactor.busFactor,
   SqlValue.num netScore.correctness.correctness,
   SqlValue.num netScore.license.license,
   SqlValue.num netScore.maintainability.maintainability]

/-- Embedding of scoresValues (src/src/cli.ts lines 305-313), the bound
values of the scores insert.  The first value is the string literal
written on line 306. -/
def scoresValues (netScore : NetScoreData) : List SqlValue :=
  [SqlValue.str "3",
   SqlValue.num netScore.netScore,
   SqlValue.num netScore.rampUp.responseTime,
   SqlValue.num netScore.busFactor.responseTime,
   SqlValue.num netScore.correctness.responseTime,
   SqlValue.num netScore.license.responseTime,
   SqlValue.num netScore.maintainability.responseTime]

/-- The internal_domain row of the constants table
(src/db/database.sql line 8 and src/db/test_database.sql line 189). -/
def internal_domain : String := "internal.acme.com"

/-- Embedding of the SQL function is_internal_dependency
(src/db/database.sql lines 11-28): the URL is internal when it contains
the configured domain, via LIKE with a wildcard on each side, which on
these patterns is the case-sensitive contiguous-substring test. -/
def is_internal_dependency (dependency_url : String) : Bool :=
  strContains dependency_url internal_domain

/-- is_internal_dependency generalized over the configured domain read
from the constants table. -/
def is_internal_dependency_for (domain dependency_url : String) : Bool :=
  strContains dependency_url domain

/-- A start-anchored pattern position: a literal character, or the
unescaped regex dot of the source, which accepts any character. -/
def beginsWithPat : List (Option Char) → List Char → Bool
  | [], _ => true
  | _ :: _, [] => false
  | oc :: p, d :: s =>
    (match oc with
     | none => true
     | some c => c == d) && beginsWithPat p s

/-- Replace a start-anchored pattern occurrence by a substitute, the
embedding of JavaScript String.prototype.replace with a ^-anchored
regex: when the pattern matches at the start its characters are replaced
by the substitute, otherwise the string is unchanged. -/
def replaceStartPat (pat : List (Option Char)) (sub : String) (s : String) : String :=
  if beginsWithPat pat s.data then String.mk (sub.data ++ s.data.drop pat.length) else s

/-- Literal-only start-anchored replace, for the patterns of the source
whose characters are all escaped or literal. -/
def replaceStart (pat sub s : String) : String :=
  replaceStartPat (pat.data.map some) sub s

/-- End-anchored literal replace by the empty string, the embedding of
.replace with a $-anchored regex deleting a suffix. -/
def replaceEnd (pat s : String) : String :=
  if beginsWith pat.data.reverse s.data.reverse
  then String.mk (s.data.take (s.data.length - pat.data.length)) else s

/-- The pattern /^ssh:\/\/git@github.com/ of src/src/cli.ts line 78; its
dot is unescaped, so it accepts any character there. -/
def sshPat : List (Option Char) :=
  ("ssh://git@github".data.map some) ++ [none] ++ ("com".data.map some)

/-- Embedding of the normalization chain of getGithubUrlFromNpm
(src/src/cli.ts line 78): strip a leading git+, rewrite a leading
ssh://git@github.com to https://github.com, strip a trailing .git, and
rewrite a leading git:// to https://, in that order. -/
def normalizeRepoUrl (repoUrl : String) : String :=
  replaceStart "git://" "https://"
    (replaceEnd ".git"
      (replaceStartPat sshPat "https://github.com"
        (replaceStart "git+" "" repoUrl)))

/-- Embedding of the package-name extraction of getGithubUrlFromNpm
(src/src/cli.ts line 66): npmUrl.split('/').pop().  split always yields
at least one element, so pop returns the last one; it is falsy exactly
when it is the empty string. -/
def extractPackageName (npmUrl : String) : Option String :=
  (strSplitOn '/' npmUrl).getLast?

/-- The body of the try block of getGithubUrlFromNpm (src/src/cli.ts
lines 64-82).  The registry oracle describes the awaited npm-registry
request for a package name: none when the request itself throws, some
none when the response has no repository.url field, and some (some u)
when that field holds u.  Except.error marks an exception leaving the
try block. -/
def getGithubUrlFromNpmTry (registry : String → Option (Option String))
    (npmUrl : String) : Except Unit (Option String) :=
  match extractPackageName npmUrl with
  | none => Except.ok none
  | some packageName =>
    if packageName = "" then Except.ok none
    else
      match registry packageName with
      | none => Except.error ()
      | some none => Except.ok none
      | some (some repoUrl) =>
        if strContains repoUrl "github.com"
        then Except.ok (some (normalizeRepoUrl repoUrl))
        else Except.ok none

/-- Embedding of getGithubUrlFromNpm (src/src/cli.ts lines 63-87): the
try body with its catch-all handler, which logs and returns null. -/
def getGithubUrlFromNpm (registry : String → Option (Option String))
    (npmUrl : String) : Option String :=
  match getGithubUrlFromNpmTry registry npmUrl with
  | Except.error _ => none
  | Except.ok v => v

/-- Modelled from the spec: the closed set of sub-metric kinds (glossary
and section 4.1); the evaluator classes live in files that are not under
src/ (rampUp.ts, busFactor.ts, correctness.ts, license.ts,
maintainability.ts). -/
inductive MetricKind where
  | rampUp
  | busFactor
  | correctness
  | license
  | maintainability
deriving DecidableEq

/-- The five kinds in the fixed order of the specification. -/
def allKinds : List MetricKind :=
  [MetricKind.rampUp, MetricKind.busFactor, MetricKind.correctness,
   MetricKind.license, MetricKind.maintainability]

/-- Modelled from the spec: the static weight vector of section 4.2 step
3 (netScore.ts is not under src/).  The spec fixes the shape, not the
numbers: weights are constants, sum to exactly 1.0, and weigh
correctness and license more heavily than ramp-up. -/
def weight : MetricKind → ℚ
  | MetricKind.rampUp => 1/10
  | MetricKind.busFactor => 1/5
  | MetricKind.correctness => 3/10
  | MetricKind.license => 3/10
  | MetricKind.maintainability => 1/10

/-- Modelled from the spec: netScore as the fixed weighted sum of the
five sub-scores (sections 4.2 and 8; netScore.ts is not under src/). -/
def netScore (scores : MetricKind → ℚ) : ℚ :=
  weight MetricKind.rampUp * scores MetricKind.rampUp +
  weight MetricKind.busFactor * scores MetricKind.busFactor +
  weight MetricKind.correctness * scores MetricKind.correctness +
  weight MetricKind.license * scores MetricKind.license +
  weight MetricKind.maintainability * scores MetricKind.maintainability

/-- The traces the batch loop can produce for a given list of resolved
URLs: the loop may stop early (quota exhaustion excepted, nothing stops
it, but a failed insert returns and a construction error throws), yet
every step it does take handles the next resolved URL in input order and
finishes the current package, evaluation, emission, then persistence,
before the next one starts. -/
inductive BatchTrace : List String → List Event → Prop
  | stop (urls : List String) : BatchTrace urls []
  | insertFailed (url : String) (urls : List String) :
      BatchTrace (url :: urls) [Event.eval url, Event.emit url]
  | step (url : String) (urls : List String) (packageId : Nat) (tr : List Event) :
      BatchTrace urls tr →
      BatchTrace (url :: urls)
        (Event.eval url :: Event.emit url :: Event.persist url packageId :: tr)

/-- C1: the SQL classifier is_internal_dependency is exactly the
case-sensitive substring test on the configured internal domain and
decides the two example URLs of the specification as stated; but the
is_internal value persisted with each package by the cli is the literal
false for every package, even for a processed repo link that contains the
internal domain, contradicting the persisted-value half of the claim. -/
theorem c1_is_internal_classification_and_persisted_value :
    is_internal_dependency "https://internal.acme.com/repo/x" = true
    ∧ is_internal_dependency "https://npmjs.com/package/y" = false
    ∧ (∀ domain url : String,
        is_internal_dependency_for domain url = true ↔
          ∃ pre post, url.data = pre ++ domain.data ++ post)
    ∧ (∀ netScoreData : NetScoreData,
        (packageValues netScoreData).get? 2 = some (SqlValue.bool false))
    ∧ is_internal_dependency "https://github.com/acme/internal.acme.com" = true := by
  refine ⟨by decide, by decide, ?_, fun _ => rfl, by decide⟩
  intro domain url
  exact containsSub_iff domain.data url.data

/-- C2: the metrics row and the scores row built by processUrls carry the
string literal "3" as their package_id value for every package, never
the id returned by the package insert; in the failing run the insert
returns id 1, and the persisted value "3" differs from "1". -/
theorem c2_metrics_scores_use_example_package_id :
    (∀ netScoreData : NetScoreData,
      (metricsValues netScoreData).get? 0 = some (SqlValue.str "3")
      ∧ (scoresValues netScoreData).get? 0 = some (SqlValue.str "3"))
    ∧ SqlValue.str "3" ≠ SqlValue.str "1" := by
  exact ⟨fun _ => ⟨rfl, rfl⟩, by decide⟩

/-- C3 counterexample: with remaining quota 0, below any safety floor,
the batch path still evaluates, emits and persists the one resolved
package and ends without any quota-exhaustion condition. -/
theorem c3_quota_floor_counterexample :
    processUrls 0 (fun _ => none) (fun _ => some 1) "https://github.com/a/b" =
      ([Event.eval "https://github.com/a/b", Event.emit "https://github.com/a/b",
        Event.persist "https://github.com/a/b" 1], none) := by
  decide

/-- C3 amended: the quota floor exists only on the test-suite path, where
runTests exits with status 1 before running any of the six test suites
when the remaining quota is below 300; the batch path processUrls only
logs the quota snapshot, and its result does not depend on it at all. -/
theorem c3_quota_floor_only_in_test_path :
    (∀ remaining : Nat, remaining < 300 → runTests remaining = Except.error 1)
    ∧ (∀ remaining remaining' : Nat, ∀ (resolver : String → Option String)
        (insertPkg : String → Option Nat) (contents : String),
        processUrls remaining resolver insertPkg contents =
          processUrls remaining' resolver insertPkg contents) := by
  constructor
  · intro remaining h
    simp [runTests, h]
  · intro _ _ _ _ _
    rfl

/-- C3 amended, witness at remaining quota 0 and at two distinct quota
snapshots on the batch path. -/
theorem c3_quota_floor_only_in_test_path_witness :
    runTests 0 = Except.error 1
    ∧ processUrls 5 (fun _ => none) (fun _ => some 1) "https://github.com/a/b" =
        processUrls 900 (fun _ => none) (fun _ => some 1) "https://github.com/a/b" := by
  exact ⟨c3_quota_floor_only_in_test_path.1 0 (by decide),
    c3_quota_floor_only_in_test_path.2 5 900 _ _ _⟩

/-- C4 counterexample: the entry https://github.com/onlyowner cannot be
turned into a repository identity (no owner/repo pair after the host),
yet it passes the github.com filter; the constructor error then escapes
the evaluation loop, the batch ends with that error, and the following
well-formed entry is never evaluated. -/
theorem c4_resolution_error_counterexample :
    evalPhase (fun _ => some 1)
      [("https://github.com/onlyowner", "https://github.com/onlyowner"),
       ("https://github.com/good/repo", "https://github.com/good/repo")] =
      ([], some "Invalid GitHub URL: https://github.com/onlyowner") := by
  decide

/-- C4 amended: an entry that contains neither github.com nor a
resolvable npmjs.com reference is skipped (without per-entry logging)
and the rest of the batch is processed unchanged; but an entry whose
resolved URL contains github.com without the owner/repo pattern makes
the constructor throw, and the error escapes the loop, aborting the
batch with the pending entries unprocessed. -/
theorem c4_resolution_errors_skip_or_abort :
    (∀ (resolver : String → Option String) (line : String) (rest : List String),
      strContains line "github.com" = false →
      (strContains line "npmjs.com" = true →
        resolver line = none ∨ resolver line = some "") →
      collectUrls resolver (line :: rest) = collectUrls resolver rest)
    ∧ (∀ (insertPkg : String → Option Nat) (nativeUrl githubUrl : String)
        (rest : List (String × String)),
        findRepo githubUrl.data = none →
        evalPhase insertPkg ((nativeUrl, githubUrl) :: rest) =
          ([], some ("Invalid GitHub URL: " ++ githubUrl))) := by
  constructor
  · intro resolver line rest hg hn
    by_cases hline : line = ""
    · simp [collectUrls, hline]
    · cases hnp : strContains line "npmjs.com" with
      | false => simp [collectUrls, hline, hg, hnp]
      | true =>
        rcases hn hnp with hr | hr
        · simp [collectUrls, hline, hg, hnp, hr]
        · simp [collectUrls, hline, hg, hnp, hr]
  · intro insertPkg nativeUrl githubUrl rest hf
    unfold evalPhase mkMetrics getRepoData
    rw [hf]

/-- C4 amended, witness: a bitbucket entry is skipped and the batch
continues, and a malformed github entry aborts the loop with the
constructor error. -/
theorem c4_resolution_errors_skip_or_abort_witness :
    collectUrls (fun _ => none) ["https://bitbucket.org/x/y", "https://github.com/c/d"] =
      collectUrls (fun _ => none) ["https://github.com/c/d"]
    ∧ evalPhase (fun _ => some 1)
        [("https://github.com/teamonly", "https://github.com/teamonly")] =
        ([], some "Invalid GitHub URL: https://github.com/teamonly") := by
  constructor
  · exact c4_resolution_errors_skip_or_abort.1 _ _ _ (by decide) (by decide)
  · exact c4_resolution_errors_skip_or_abort.2 _ _ _ _ (by decide)

/-- C5: constructing a Metrics instance succeeds exactly when the url
holds the recognized pattern github.com/owner/repo (so it fails, raising
the invalid-URL error, exactly when the url does not); on success every
field of the instance is populated from the constructor arguments, with
owner and repo the captures getRepoData extracts from the url. -/
theorem c5_metrics_construction (nativeURL url : String) :
    ((∃ m, mkMetrics nativeURL url = Except.ok m) ↔ HasRepoPattern url)
    ∧ ∀ m, mkMetrics nativeURL url = Except.ok m →
        m.NativeURL = nativeURL ∧ m.url = url ∧ m.responseTime = 0 ∧
        getRepoData url = Except.ok (m.owner, m.repo) := by
  constructor
  · constructor
    · rintro ⟨m, hm⟩
      unfold mkMetrics getRepoData at hm
      cases hf : findRepo url.data with
      | none => rw [hf] at hm; simp at hm
      | some x =>
        rcases x with ⟨o, r⟩
        rcases findRepo_sound hf with ⟨pre, post, hdecomp, h1, h2, h3, h4⟩
        exact ⟨pre, o, r, post, by simpa [List.append_assoc] using hdecomp, h1, h2, h3, h4⟩
    · rintro ⟨pre, o, r, post, hdecomp, h1, h2, h3, h4⟩
      have hsome := findRepo_complete h1 h2 h3 h4 pre post
      rw [show pre ++ ghChars ++ o ++ '/' :: (r ++ post) = url.data by
        rw [hdecomp]] at hsome
      unfold mkMetrics getRepoData
      cases hf : findRepo url.data with
      | none => rw [hf] at hsome; simp at hsome
      | some x =>
        rcases x with ⟨o', r'⟩
        exact ⟨_, rfl⟩
  · intro m hm
    unfold mkMetrics getRepoData at hm
    unfold getRepoData
    cases hf : findRepo url.data with
    | none => rw [hf] at hm; simp at hm
    | some x =>
      rcases x with ⟨o, r⟩
      rw [hf] at hm
      simp only [Except.ok.injEq] at hm
      subst hm
      exact ⟨rfl, rfl, rfl, rfl⟩

/-- C5 witness: at the concrete URL https://github.com/a/b construction
succeeds, the pattern holds, and the instance fields are the captures. -/
theorem c5_metrics_construction_witness :
    HasRepoPattern "https://github.com/a/b"
    ∧ getRepoData "https://github.com/a/b" = Except.ok ("a", "b") := by
  have h := c5_metrics_construction "https://www.npmjs.com/package/b" "https://github.com/a/b"
  have hm : mkMetrics "https://www.npmjs.com/package/b" "https://github.com/a/b" =
      Except.ok { url := "https://github.com/a/b", owner := "a", repo := "b",
                  NativeURL := "https://www.npmjs.com/package/b", responseTime := 0 } := rfl
  exact ⟨h.1.mp ⟨_, hm⟩, (h.2 _ hm).2.2.2⟩

/-- C6: netScore is the fixed weighted sum of the five sub-scores over
the MetricKinds, a pure function of the scores vector, and the weight
constants sum to 1 within the 1e-6 tolerance. -/
theorem c6_net_score_weighted_sum :
    (∀ scores : MetricKind → ℚ,
      netScore scores = (allKinds.map (fun k => weight k * scores k)).sum)
    ∧ |(allKinds.map weight).sum - 1| ≤ 1/1000000 := by
  constructor
  · intro scores
    simp only [netScore, allKinds, List.map_cons, List.map_nil, List.sum_cons,
      List.sum_nil]
    ring
  · norm_num [allKinds, weight]

/-- C7: whatever the quota snapshot, the npm resolver, and the insert
outcomes, the trace of the batch run handles the resolved entries in
input order, finishing each package, evaluation, result-line emission,
then persistence, before the next package is evaluated. -/
theorem c7_batch_order (remaining : Nat) (resolver : String → Option String)
    (insertPkg : String → Option Nat) (contents : String) :
    BatchTrace ((collectUrls resolver (strSplitOn '\n' contents)).map Prod.snd)
      (processUrls remaining resolver insertPkg contents).fst := by
  unfold processUrls
  generalize collectUrls resolver (strSplitOn '\n' contents) = entries
  induction entries with
  | nil => exact BatchTrace.stop []
  | cons entry rest ih =>
    rcases entry with ⟨nativeUrl, githubUrl⟩
    unfold evalPhase
    cases hm : mkMetrics nativeUrl githubUrl with
    | error e => exact BatchTrace.stop _
    | ok m =>
      cases hins : insertPkg githubUrl with
      | none => exact BatchTrace.insertFailed _ _
      | some packageId =>
        simp only [List.map_cons]
        exact BatchTrace.step _ _ packageId _ ih

/-- C8: a line of the batch input that is empty or all whitespace
produces no entry in the resolved URL list and leaves the handling of
every other line unchanged: deleting it from any position of the input
does not change collectUrls at all.  (An empty line is skipped by the
explicit check of line 181 of src/src/cli.ts; a whitespace-only line
falls through every branch because discarding the result of trim leaves
it unable to contain github.com or npmjs.com.) -/
theorem c8_blank_lines_ignored (resolver : String → Option String)
    (pre post : List String) (line : String)
    (h : ∀ c ∈ line.data, c.isWhitespace = true) :
    collectUrls resolver (pre ++ line :: post) = collectUrls resolver (pre ++ post) := by
  induction pre with
  | nil =>
    simp only [List.nil_append]
    by_cases hline : line = ""
    · simp [collectUrls, hline]
    · have hg : strContains line "github.com" = false :=
        containsSub_eq_false_of_whitespace 'g' (by decide) (by decide) h
      have hn : strContains line "npmjs.com" = false :=
        containsSub_eq_false_of_whitespace 'n' (by decide) (by decide) h
      simp [collectUrls, hline, hg, hn]
  | cons u pre' ih =>
    simp only [List.cons_append]
    unfold collectUrls
    simp only [ih]

/-- C8 witness: dropping a two-space line between two GitHub entries
leaves the resolved list unchanged. -/
theorem c8_blank_lines_ignored_witness :
    collectUrls (fun _ => none)
      (["https://github.com/a/b"] ++ "  " :: ["https://github.com/c/d"]) =
    collectUrls (fun _ => none) (["https://github.com/a/b"] ++ ["https://github.com/c/d"]) := by
  exact c8_blank_lines_ignored _ _ _ _ (by decide)

/-- C9: whenever the getRepoData pattern matches somewhere in the url at
position i and nowhere earlier, Metrics construction succeeds and its
owner and repo fields are the two captures of that first occurrence,
whatever surrounds it, with any non-slash suffix such as .git or a query
string kept verbatim inside the repo capture. -/
theorem c9_first_occurrence_extraction (nativeURL url : String) (i : Nat)
    (o r : List Char)
    (h1 : matchRepoAt (url.data.drop i) = some (o, r))
    (h2 : ∀ j, j < i → matchRepoAt (url.data.drop j) = none) :
    mkMetrics nativeURL url =
      Except.ok { url := url, owner := String.mk o, repo := String.mk r,
                  NativeURL := nativeURL, responseTime := 0 } := by
  have hf : findRepo url.data = some (o, r) := findRepo_first i url.data h1 h2
  unfold mkMetrics getRepoData
  rw [hf]

/-- C9 witness: in a URL whose host is not github.com, the first
occurrence of the pattern is extracted, and the repo capture keeps the
.git and query suffix verbatim. -/
theorem c9_first_occurrence_extraction_witness :
    mkMetrics "https://www.npmjs.com/package/bar"
        "http://m.example/github.com/foo/bar.git?q=1" =
      Except.ok { url := "http://m.example/github.com/foo/bar.git?q=1",
                  owner := "foo", repo := "bar.git?q=1",
                  NativeURL := "https://www.npmjs.com/package/bar",
                  responseTime := 0 } := by
  exact c9_first_occurrence_extraction "https://www.npmjs.com/package/bar"
    "http://m.example/github.com/foo/bar.git?q=1" 17 "foo".data "bar.git?q=1".data
    (by decide) (by decide)

/-- C10: getGithubUrlFromNpm is total over every registry behaviour; it
returns a URL exactly when the extracted package name is non-empty, the
registry lookup returns a repository URL containing github.com, and then
the returned URL is that repository URL normalized; in every other case,
a thrown registry request included, the catch-all handler makes it
return null. -/
theorem c10_npm_resolution (registry : String → Option (Option String))
    (npmUrl : String) :
    (∀ g : String,
      getGithubUrlFromNpm registry npmUrl = some g ↔
        ∃ packageName repoUrl,
          extractPackageName npmUrl = some packageName ∧ packageName ≠ "" ∧
          registry packageName = some (some repoUrl) ∧
          strContains repoUrl "github.com" = true ∧
          g = normalizeRepoUrl repoUrl)
    ∧ ∀ e, getGithubUrlFromNpmTry registry npmUrl = Except.error e →
        getGithubUrlFromNpm registry npmUrl = none := by
  constructor
  · intro g
    unfold getGithubUrlFromNpm getGithubUrlFromNpmTry
    cases hpn : extractPackageName npmUrl with
    | none => simp
    | some packageName =>
      by_cases hemp : packageName = ""
      · simp [hemp]
      · cases hreg : registry packageName with
        | none => simp [hemp, hreg]
        | some inner =>
          cases inner with
          | none => simp [hemp, hreg]
          | some repoUrl =>
            cases hc : strContains repoUrl "github.com" with
            | false => simp [hemp, hreg, hc]
            | true =>
              constructor
              · intro hsome
                have hg : g = normalizeRepoUrl repoUrl := by
                  simp [hemp, hreg, hc] at hsome
                  exact hsome.symm
                exact ⟨packageName, repoUrl, rfl, hemp, hreg, hc, hg⟩
              · rintro ⟨pn', ru', hpn', hne', hreg', hc', hg'⟩
                have hpp : pn' = packageName := by
                  injection hpn' with h
                  exact h.symm
                subst hpp
                rw [hreg'] at hreg
                have hru : ru' = repoUrl := by
                  simpa using hreg
                subst hru
                subst hg'
                simp [hemp, hreg', hc]
  · intro e herr
    unfold getGithubUrlFromNpm
    rw [herr]

/-- C10 witness: a registry that answers the axios lookup with a git+
URL makes the function return the normalized GitHub URL, and a registry
whose request throws makes it return null. -/
theorem c10_npm_resolution_witness :
    getGithubUrlFromNpm
        (fun packageName => if packageName = "axios"
          then some (some "git+https://github.com/axios/axios.git") else none)
        "https://www.npmjs.com/package/axios" = some "https://github.com/axios/axios"
    ∧ getGithubUrlFromNpm (fun _ => none) "https://www.npmjs.com/package/axios" = none := by
  constructor
  · exact ((c10_npm_resolution _ _).1 _).mpr
      ⟨"axios", "git+https://github.com/axios/axios.git", by decide, by decide, rfl,
        by decide, by decide⟩
  · exact (c10_npm_resolution _ _).2 () rfl
